import Mathlib

/-!
Verification of the loadout-optimizer core in
`src/app/loadout-builder/process/process-wrapper.ts`.

The TypeScript source is shallowly embedded below.  Conventions used by the
embedding:

* JS numbers that the code only ever treats as nonnegative integers
  (stat values, energy capacity, power, item hashes, plug category hashes)
  become `Nat`; negated sort keys become `Int`.
* A `ProcessItem.stats` object (`stats[statHash]`) becomes an association
  list with a total lookup (`getStat`); the worker always populates every
  constrained stat hash.
* A JS `Set` built from a list keeps the first occurrence of every element
  in insertion order; `distinctList` reproduces exactly that.
* `Array.prototype.sort` is a stable sort consistent with its comparator,
  so it is embedded as a stable insertion sort (`sortByLe`).  The default
  string sort compares code units, embedded as `strLe` on `String.data`.
* The dynamic string grouping keys of the source are embedded as structured
  keys compared by value: the first-pass key is `some hash` for an exotic
  and `none` for `'legendary-'` (a decimal numeral followed by `-` never
  collides with the literal `legendary-`), and the final key is the record
  of the three interpolated components, injective here because the stat
  vector has the fixed length `resolvedStatConstraints.length` and the
  season tags are interpolated as a comma-separated sorted list.
-/

/-- Resolved stat constraint, as in `ResolvedStatConstraint` of
`loadout-builder/types`: a stat hash with tier bounds and an ignored flag.
Only `statHash` is read by `mapItemsToGroups`. -/
structure ResolvedStatConstraint where
  statHash : Nat
  minTier : Nat
  maxTier : Nat
  ignored : Bool
deriving DecidableEq, Repr, Inhabited

/-- The fields of `ProcessItem` (from `process-worker/types`) that
`process-wrapper.ts` reads: id, item hash, exotic and artifice flags,
remaining energy capacity, the per-stat-hash stat record, and the
compatible mod season tags. -/
structure ProcessItem where
  id : String
  hash : Nat
  isExotic : Bool
  isArtifice : Bool
  remainingEnergyCapacity : Nat
  stats : List (Nat × Nat)
  compatibleModSeasons : List String
deriving DecidableEq, Repr, Inhabited

/-- The fields of `DimItem` that `process-wrapper.ts` reads: the item id and
the five tie-break sort keys of `groupComparator`.  `energyCapacity` stands
for the JS expression `dimItem.energy?.energyCapacity || 0`. -/
structure DimItem where
  id : String
  energyCapacity : Nat
  vendor : Bool
  power : Nat
  equipped : Bool
deriving DecidableEq, Repr, Inhabited

/-- The `MappedItem` pairs of `mapItemsToGroups`: a `DimItem` together with
the `ProcessItem` produced for it. -/
structure MappedItem where
  dimItem : DimItem
  processItem : ProcessItem
deriving DecidableEq, Repr, Inhabited

/-- Total lookup in a `ProcessItem.stats` record: `stats[statHash]`.  The
record carries an entry for every constrained stat hash. -/
def getStat (stats : List (Nat × Nat)) (statHash : Nat) : Nat :=
  match stats.lookup statHash with
  | some v => v
  | none => 0

/-- The requiredModTags set of `mapItemsToGroups`: the mod type tags of the
activity mods, via `getModTypeTagByPlugCategoryHash` (an external lookup,
abstracted as `getModTypeTag`), skipping mods without a tag.  Only
membership in this set is ever used. -/
def requiredModTags (getModTypeTag : Nat → Option String) (activityMods : List Nat) :
    List String :=
  activityMods.filterMap getModTypeTag

/-- JS `new Set(list)` as a list: first occurrence of every element, in
insertion order. -/
def distinctList {α : Type} [DecidableEq α] : List α → List α
  | [] => []
  | a :: l => a :: (distinctList l).filter (fun x => decide (x ≠ a))

/-- Stable insertion of `a` into `l`, placing `a` before the first element
`b` with `le a b`. -/
def insertLe {α : Type} (le : α → α → Bool) (a : α) : List α → List α
  | [] => [a]
  | b :: l => if le a b then a :: b :: l else b :: insertLe le a l

/-- Stable sort by the boolean relation `le`; embeds the (stable)
`Array.prototype.sort`. -/
def sortByLe {α : Type} (le : α → α → Bool) : List α → List α
  | [] => []
  | a :: l => insertLe le a (sortByLe le l)

/-- Code-unit comparison of strings, as used by the default JS sort of the
season tag strings. -/
def strLe (a b : String) : Bool :=
  decide (a.data < b.data ∨ a.data = b.data)

/-- The per-item record cached by the second pass of `mapItemsToGroups`:
the stat values in `resolvedStatConstraints` order, the remaining energy
capacity, the sorted set of relevant mod season tags, and the artifice
flag. -/
structure ItemInfo where
  stats : List Nat
  energyCapacity : Nat
  relevantModSeasons : List String
  isArtifice : Bool
deriving DecidableEq, Repr, Inhabited

/-- The cache entry computed for one mapped item: it is a pure function of
the item, so the `Map` keyed by `dimItem` is embedded as this function. -/
def itemInfo (resolvedStatConstraints : List ResolvedStatConstraint)
    (requiredTags : List String) (item : MappedItem) : ItemInfo :=
  { stats := resolvedStatConstraints.map fun c => getStat item.processItem.stats c.statHash
    energyCapacity := item.processItem.remainingEnergyCapacity
    relevantModSeasons :=
      distinctList (sortByLe strLe
        (item.processItem.compatibleModSeasons.filter fun season =>
          requiredTags.contains season))
    isArtifice := item.processItem.isArtifice }

/-- Checks if `test` is a superset of `existing`, i.e. every value of
`existing` is contained in `test`. -/
def isSuperset (test existing : List String) : Bool :=
  existing.all fun v => test.contains v

/-- The pruning dominance check of `mapItemsToGroups`.  The stat arrays of
both items have length `resolvedStatConstraints.length`, so the indexed JS
`every`/`some` over them is the `zip`.  The JS `Set.size` of the relevant
seasons is the length of the deduplicated sorted list. -/
def isStrictlyBetter (info : MappedItem → ItemInfo)
    (testItem existingItem : MappedItem) : Bool :=
  let testInfo := info testItem
  let existingInfo := info existingItem
  let betterOrEqual :=
    ((testInfo.stats.zip existingInfo.stats).all fun p => decide (p.2 ≤ p.1)) &&
    decide (existingInfo.energyCapacity ≤ testInfo.energyCapacity) &&
    (testItem.processItem.isArtifice || !existingInfo.isArtifice) &&
    isSuperset testInfo.relevantModSeasons existingInfo.relevantModSeasons
  if !betterOrEqual then false
  else
    ((testInfo.stats.zip existingInfo.stats).any fun p => decide (p.1 ≠ p.2)) ||
    decide (testInfo.energyCapacity ≠ existingInfo.energyCapacity) ||
    (testInfo.isArtifice != existingInfo.isArtifice) ||
    decide (testInfo.relevantModSeasons.length ≠ existingInfo.relevantModSeasons.length)

/-- One backwards scan of the keep set for an incoming item, processing the
keep set from its last element to its first (the argument list is the keep
set reversed).  Returns the surviving elements (still reversed) and whether
the scan stopped early because a kept item was strictly better than the
incoming one (`dominated = true`). -/
def pruneScan (info : MappedItem → ItemInfo) (item : MappedItem) :
    List MappedItem → List MappedItem × Bool
  | [] => ([], false)
  | k :: ks =>
    if isStrictlyBetter info k item then (k :: ks, true)
    else if isStrictlyBetter info item k then pruneScan info item ks
    else
      let r := pruneScan info item ks
      (k :: r.1, r.2)

/-- One iteration of the pruning loop body: scan the keep set backwards,
splicing out kept items the incoming item is strictly better than, stopping
early if a kept item is strictly better than it; push the incoming item if
it was not dominated. -/
def pruneStep (info : MappedItem → ItemInfo) (keepSet : List MappedItem)
    (item : MappedItem) : List MappedItem :=
  let r := pruneScan info item keepSet.reverse
  if r.2 then r.1.reverse else r.1.reverse ++ [item]

/-- The pruning loop of `mapItemsToGroups` over one first-pass bucket,
starting from an empty keep set. -/
def pruneBucket (info : MappedItem → ItemInfo) (bucket : List MappedItem) :
    List MappedItem :=
  bucket.foldl (pruneStep info) []

/-- The `Object.groupBy` / `Map.groupBy` pattern: the groups of `l` under
`key`, listed in order of first key occurrence, each group in input order. -/
def groupByKey {α κ : Type} [DecidableEq κ] (key : α → κ) (l : List α) :
    List (List α) :=
  (distinctList (l.map key)).map fun k => l.filter fun x => decide (key x = k)

/-- The first-pass grouping key: every exotic is keyed by its own hash
(string key `hash + '-'` in the source), all other items share one
`'legendary-'` key; embedded as `some hash` versus `none`. -/
def firstPassGroupingFn (item : ProcessItem) : Option Nat :=
  if item.isExotic then some item.hash else none

/-- The final grouping key, the structured form of the source's
interpolated string `stats + '-' + energyCapacity + '-' + seasons`. -/
structure GroupKey where
  stats : List Nat
  energyCapacity : Nat
  modSeasons : List String
deriving DecidableEq, Repr

/-- The final grouping key of an item, read off its cached info record (the
source reads the cache through the `dimItem`; the cache entry is the pure
function `info` of the mapped item). -/
def finalGroupingFn (info : MappedItem → ItemInfo) (item : MappedItem) : GroupKey :=
  { stats := (info item).stats
    energyCapacity := (info item).energyCapacity
    modSeasons := (info item).relevantModSeasons }

/-- The comparator for sorting items within a group:
`chainComparator(compareBy ...)` over the five tie-break keys, first
difference wins.  `compareLex c1 c2` is exactly `(c1 a b).then (c2 a b)`,
and `compareOn f` compares the key `f`; negated numeric keys sort higher
values first, and boolean keys sort `false` first. -/
def groupComparator (getUserItemTag : DimItem → Option String) :
    MappedItem → MappedItem → Ordering :=
  compareLex (compareOn fun item : MappedItem => -(item.dimItem.energyCapacity : Int))
    (compareLex (compareOn fun item : MappedItem => item.dimItem.vendor)
      (compareLex
        (compareOn fun item : MappedItem => getUserItemTag item.dimItem != some "favorite")
        (compareLex (compareOn fun item : MappedItem => -(item.dimItem.power : Int))
          (compareOn fun item : MappedItem =>
            if item.dimItem.equipped then (0 : Nat) else 1))))

/-- An element sorts at or before another when the comparator does not say
`gt`; a JS comparator-sort produces exactly such an order. -/
def groupLe (getUserItemTag : DimItem → Option String) (a b : MappedItem) : Bool :=
  groupComparator getUserItemTag a b != Ordering.gt

/-- `group.sort(groupComparator(getUserItemTag))`: the stable sort of a
group by the tie-break comparator. -/
def sortGroup (getUserItemTag : DimItem → Option String) (group : List MappedItem) :
    List MappedItem :=
  sortByLe (groupLe getUserItemTag) group

/-- The `ItemGroup` type of `loadout-builder/types`: the canonical
representative `ProcessItem` plus the full `DimItem` membership. -/
structure ItemGroup where
  canonicalProcessItem : ProcessItem
  items : List DimItem
deriving DecidableEq, Repr, Inhabited

/-- Building one output group from one final group: sort it with the
tie-break comparator, take `group[0].processItem` as canonical and keep all
members in sorted order.  Final groups are never empty, so `headI` never
takes its default. -/
def mkGroup (getUserItemTag : DimItem → Option String) (group : List MappedItem) :
    ItemGroup :=
  { canonicalProcessItem := (sortGroup getUserItemTag group).headI.processItem
    items := (sortGroup getUserItemTag group).map fun item => item.dimItem }

/-- The per-first-pass-bucket part of `mapItemsToGroups`: prune the bucket,
group what is left by the final key, and build the output groups. -/
def bucketToGroups (info : MappedItem → ItemInfo)
    (getUserItemTag : DimItem → Option String) (bucket : List MappedItem) :
    List ItemGroup :=
  (groupByKey (finalGroupingFn info) (pruneBucket info bucket)).map
    (mkGroup getUserItemTag)

/-- Modelled from the spec: `mapDimItemToProcessItem` (in
`process/mappers.ts`) is not among the provided sources; per §4.1 the Item
Normalizer is a pure, total, deterministic function from an item (plus
energy rules and slot mods, fixed for one call) to its canonical record, so
it is abstracted as the function parameter `toProcess` below. -/
def mapItemsToGroups (toProcess : DimItem → ProcessItem)
    (resolvedStatConstraints : List ResolvedStatConstraint)
    (getModTypeTag : Nat → Option String) (activityMods : List Nat)
    (getUserItemTag : DimItem → Option String) (items : List DimItem) :
    List ItemGroup :=
  let requiredTags := requiredModTags getModTypeTag activityMods
  let mappedItems := items.map fun dimItem => MappedItem.mk dimItem (toProcess dimItem)
  let info := itemInfo resolvedStatConstraints requiredTags
  (groupByKey (fun item => firstPassGroupingFn item.processItem) mappedItems).flatMap
    (bucketToGroups info getUserItemTag)

/-- The grouping work of `runProcess` over the `filteredItems` buckets
(`Object.entries` order): every bucket is grouped by `mapItemsToGroups`.
The per-bucket `modsForSlot` argument of the normalizer is reflected by
letting `toProcess` depend on the bucket hash.  The flattened group list
determines both `processItems` and `itemsById`. -/
def runProcessGroups (toProcess : Nat → DimItem → ProcessItem)
    (resolvedStatConstraints : List ResolvedStatConstraint)
    (getModTypeTag : Nat → Option String) (activityMods : List Nat)
    (getUserItemTag : DimItem → Option String)
    (filteredItems : List (Nat × List DimItem)) : List ItemGroup :=
  filteredItems.flatMap fun bucket =>
    mapItemsToGroups (toProcess bucket.1) resolvedStatConstraints getModTypeTag
      activityMods getUserItemTag bucket.2

/-- The canonical items pushed into `processItems` and sent to the worker,
flattened across buckets. -/
def processItemsSent (toProcess : Nat → DimItem → ProcessItem)
    (resolvedStatConstraints : List ResolvedStatConstraint)
    (getModTypeTag : Nat → Option String) (activityMods : List Nat)
    (getUserItemTag : DimItem → Option String)
    (filteredItems : List (Nat × List DimItem)) : List ProcessItem :=
  (runProcessGroups toProcess resolvedStatConstraints getModTypeTag activityMods
      getUserItemTag filteredItems).map fun group => group.canonicalProcessItem

/-- The `itemsById` map of `runProcess` as its insertion sequence:
`itemsById.set(group.canonicalProcessItem.id, group)` for every group. -/
def itemsById (toProcess : Nat → DimItem → ProcessItem)
    (resolvedStatConstraints : List ResolvedStatConstraint)
    (getModTypeTag : Nat → Option String) (activityMods : List Nat)
    (getUserItemTag : DimItem → Option String)
    (filteredItems : List (Nat × List DimItem)) : List (String × ItemGroup) :=
  (runProcessGroups toProcess resolvedStatConstraints getModTypeTag activityMods
      getUserItemTag filteredItems).map fun group => (group.canonicalProcessItem.id, group)

/-- JS `Map.get` over an insertion sequence: the value of the last `set`
for the key, if any. -/
def mapGet (entries : List (String × ItemGroup)) (id : String) : Option ItemGroup :=
  entries.reverse.lookup id

/-- Modelled from the spec: `hydrateArmorSet` (in `process/mappers.ts`) is
not among the provided sources; per §4.5 the Result Hydrator expands each
per-slot canonical item id through the group index into the full
equivalence group (representative `canonicalProcessItem` plus the member
list as swap alternatives), and a canonical id absent from the index is a
precondition violation (`none` here). -/
def hydrateArmorSet (groupIndex : String → Option ItemGroup) :
    List String → Option (List ItemGroup)
  | [] => some []
  | id :: rest =>
    match groupIndex id, hydrateArmorSet groupIndex rest with
    | some group, some groups => some (group :: groups)
    | _, _ => none

/-- How one `worker.process(...)` call can end: it fulfills with a result,
it rejects (the worker threw or crashed), or no response ever arrives (for
example the caller ran `cleanup`, which terminates the worker, before
completion). -/
inductive WorkerOutcome (R : Type) where
  | success (result : R)
  | failure
  | noResponse
deriving DecidableEq, Repr

/-- The observable settlement state of a JS promise. -/
inductive PromiseState (S : Type) where
  | pending
  | resolved (value : S)
  | rejected
deriving DecidableEq, Repr

/-- The settlement state of the `resultPromise` returned by `runProcess`,
as a function of the worker call outcome.  The executor is
`new Promise((resolve) => { worker.process(...).then(onFulfilled).finally(cleanup) })`:
`resolve` is invoked only inside the fulfillment handler (with the hydrated
result), the executor never calls nor receives a `reject`, and no rejection
handler is attached, so when the worker call rejects or never responds the
returned promise stays pending forever. -/
def resultPromiseState {R S : Type} (hydrate : R → S) :
    WorkerOutcome R → PromiseState S
  | .success result => .resolved (hydrate result)
  | .failure => .pending
  | .noResponse => .pending

/-- How many times a promise in the given state has settled. -/
def settleCount {S : Type} : PromiseState S → Nat
  | .pending => 0
  | .resolved _ => 1
  | .rejected => 1

/-- Whether the `.finally(() => cleanup())` handler of the worker call
chain runs for a given outcome: `finally` fires when the inner call chain
settles either way, and never fires when no response arrives (in that case
only a caller-invoked `cleanup` reclaims the worker). -/
def finallyCleanupRuns {R : Type} : WorkerOutcome R → Bool
  | .success _ => true
  | .failure => true
  | .noResponse => false

/-- Dominance as written in spec §4.2, over the cached canonical records:
every constrained stat at least as high, energy capacity at least as high,
artifice capability not lost, mod tag set a superset, and at least one of
the four comparisons strict. -/
def specDominates (a b : ItemInfo) : Prop :=
  (∀ i, i < a.stats.length → b.stats.getD i 0 ≤ a.stats.getD i 0) ∧
  b.energyCapacity ≤ a.energyCapacity ∧
  (b.isArtifice = true → a.isArtifice = true) ∧
  (∀ s, s ∈ b.relevantModSeasons → s ∈ a.relevantModSeasons) ∧
  ((∃ i, i < a.stats.length ∧ b.stats.getD i 0 < a.stats.getD i 0) ∨
    b.energyCapacity < a.energyCapacity ∨
    (a.isArtifice = true ∧ b.isArtifice = false) ∨
    (∃ s, s ∈ a.relevantModSeasons ∧ s ∉ b.relevantModSeasons))

/-- The hydration round-trip property of `runProcess`: every canonical item
sent to the worker is indexed by `itemsById` under its id with itself as
the group representative, and hydrating any id list drawn from the sent
items yields exactly the groups whose representatives are those items. -/
def hydrationRoundTrip (toProcess : Nat → DimItem → ProcessItem)
    (resolvedStatConstraints : List ResolvedStatConstraint)
    (getModTypeTag : Nat → Option String) (activityMods : List Nat)
    (getUserItemTag : DimItem → Option String)
    (filteredItems : List (Nat × List DimItem)) : Prop :=
  (∀ p ∈ processItemsSent toProcess resolvedStatConstraints getModTypeTag
      activityMods getUserItemTag filteredItems,
    ∃ g, mapGet (itemsById toProcess resolvedStatConstraints getModTypeTag
        activityMods getUserItemTag filteredItems) p.id = some g ∧
      g.canonicalProcessItem = p) ∧
  (∀ setIds : List String,
    (∀ i ∈ setIds, ∃ p ∈ processItemsSent toProcess resolvedStatConstraints
        getModTypeTag activityMods getUserItemTag filteredItems, p.id = i) →
    ∃ gs, hydrateArmorSet (mapGet (itemsById toProcess resolvedStatConstraints
        getModTypeTag activityMods getUserItemTag filteredItems)) setIds = some gs ∧
      gs.map (fun g => g.canonicalProcessItem.id) = setIds ∧
      ∀ g ∈ gs, g.canonicalProcessItem ∈ processItemsSent toProcess
        resolvedStatConstraints getModTypeTag activityMods getUserItemTag
        filteredItems)

/-! Concrete example inputs, used to instantiate the verified statements.
The six-stat constraint list and the owned/vendor helmet pair mirror the
worked examples of spec §8. -/

/-- Six resolved stat constraints with stat hashes 0 to 5. -/
def exC6 : List ResolvedStatConstraint :=
  [⟨0, 0, 10, false⟩, ⟨1, 0, 10, false⟩, ⟨2, 0, 10, false⟩,
    ⟨3, 0, 10, false⟩, ⟨4, 0, 10, false⟩, ⟨5, 0, 10, false⟩]

/-- Two resolved stat constraints with stat hashes 0 and 1. -/
def exC2 : List ResolvedStatConstraint := [⟨0, 0, 10, false⟩, ⟨1, 0, 10, false⟩]

/-- A legendary helmet record with stat vector 10,10,10,10,10,10 and
energy 10, owned (not vendor) and currently equipped. -/
def exPOwned : ProcessItem :=
  ⟨"owned", 1, false, false, 10,
    [(0, 10), (1, 10), (2, 10), (3, 10), (4, 10), (5, 10)], []⟩

/-- The same canonical record as `exPOwned` for a vendor copy. -/
def exPVendor : ProcessItem :=
  ⟨"vendor", 1, false, false, 10,
    [(0, 10), (1, 10), (2, 10), (3, 10), (4, 10), (5, 10)], []⟩

/-- The owned, equipped helmet. -/
def exDOwned : DimItem := ⟨"owned", 10, false, 1600, true⟩

/-- The vendor-sourced helmet, otherwise identical. -/
def exDVendor : DimItem := ⟨"vendor", 10, true, 1600, false⟩

/-- The normalizer for the example pair: the vendor item maps to
`exPVendor`, the owned one to `exPOwned`. -/
def exToProcess : DimItem → ProcessItem := fun d =>
  if d.vendor then exPVendor else exPOwned

/-- Mapped items with two-stat vectors 1,0 and 0,1 and 2,0 and 3,0, for
exercising the pruning loop: the first two are incomparable, the third
strictly betters the first, the fourth strictly betters them all. -/
def exM1 : MappedItem :=
  ⟨⟨"m1", 10, false, 100, false⟩, ⟨"m1", 7, false, false, 1, [(0, 1), (1, 0)], []⟩⟩

/-- Mapped item with stat vector 0,1; incomparable with `exM1`. -/
def exM2 : MappedItem :=
  ⟨⟨"m2", 10, false, 100, false⟩, ⟨"m2", 7, false, false, 1, [(0, 0), (1, 1)], []⟩⟩

/-- Mapped item with stat vector 2,0; strictly better than `exM1`. -/
def exM3 : MappedItem :=
  ⟨⟨"m3", 10, false, 100, false⟩, ⟨"m3", 7, false, false, 1, [(0, 2), (1, 0)], []⟩⟩

/-- Mapped item with stat vector 3,0; strictly better than `exM3`. -/
def exM4 : MappedItem :=
  ⟨⟨"m4", 10, false, 100, false⟩, ⟨"m4", 7, false, false, 1, [(0, 3), (1, 0)], []⟩⟩

/-! Helper lemmas about the embedded JS primitives. -/

theorem distinctList_sublist {α : Type} [DecidableEq α] (l : List α) :
    (distinctList l).Sublist l := by
  induction l with
  | nil => simp [distinctList]
  | cons a l ih =>
    exact (List.filter_sublist _).trans ih |>.cons₂ a

theorem mem_distinctList {α : Type} [DecidableEq α] {a : α} {l : List α} :
    a ∈ distinctList l ↔ a ∈ l := by
  induction l with
  | nil => simp [distinctList]
  | cons b l ih =>
    simp only [distinctList, List.mem_cons, List.mem_filter, ih, decide_eq_true_eq]
    constructor
    · rintro (rfl | ⟨h, _⟩)
      · exact Or.inl rfl
      · exact Or.inr h
    · rintro (rfl | h)
      · exact Or.inl rfl
      · by_cases hab : a = b
        · exact Or.inl hab
        · exact Or.inr ⟨h, hab⟩

theorem distinctList_nodup {α : Type} [DecidableEq α] (l : List α) :
    (distinctList l).Nodup := by
  induction l with
  | nil => simp [distinctList]
  | cons a l ih =>
    refine List.Nodup.cons ?_ (ih.filter _)
    intro hmem
    have := List.of_mem_filter hmem
    simp at this

theorem insertLe_perm {α : Type} (le : α → α → Bool) (a : α) (l : List α) :
    (insertLe le a l).Perm (a :: l) := by
  induction l with
  | nil => simp [insertLe]
  | cons b l ih =>
    simp only [insertLe]
    split
    · exact List.Perm.refl _
    · exact (ih.cons b).trans (List.Perm.swap a b l)

theorem sortByLe_perm {α : Type} (le : α → α → Bool) (l : List α) :
    (sortByLe le l).Perm l := by
  induction l with
  | nil => simp [sortByLe]
  | cons a l ih =>
    exact (insertLe_perm le a (sortByLe le l)).trans (ih.cons a)

theorem isSuperset_iff {test existing : List String} :
    isSuperset test existing = true ↔ ∀ s ∈ existing, s ∈ test := by
  simp [isSuperset, List.all_eq_true, List.contains, List.elem_iff]

theorem zipAllLe_iff {xs ys : List Nat} (h : xs.length = ys.length) :
    (((xs.zip ys).all fun p => decide (p.2 ≤ p.1)) = true) ↔
      ∀ i, i < xs.length → ys.getD i 0 ≤ xs.getD i 0 := by
  induction xs generalizing ys with
  | nil => simp
  | cons x xs ih =>
    cases ys with
    | nil => simp at h
    | cons y ys =>
      simp only [List.zip_cons_cons, List.all_cons, Bool.and_eq_true, decide_eq_true_eq]
      rw [ih (by simpa using h)]
      constructor
      · rintro ⟨h0, hrest⟩ i hi
        cases i with
        | zero => simpa using h0
        | succ j => simpa using hrest j (by simpa using hi)
      · intro hall
        refine ⟨by simpa using hall 0 (by simp), fun j hj => ?_⟩
        simpa using hall (j + 1) (by simpa using hj)

theorem zipAnyNe_iff {xs ys : List Nat} (h : xs.length = ys.length) :
    (((xs.zip ys).any fun p => decide (p.1 ≠ p.2)) = true) ↔
      ∃ i, i < xs.length ∧ xs.getD i 0 ≠ ys.getD i 0 := by
  induction xs generalizing ys with
  | nil => simp
  | cons x xs ih =>
    cases ys with
    | nil => simp at h
    | cons y ys =>
      simp only [List.zip_cons_cons, List.any_cons, Bool.or_eq_true, decide_eq_true_eq]
      rw [ih (by simpa using h)]
      constructor
      · rintro (h0 | ⟨j, hj, hne⟩)
        · exact ⟨0, by simp, by simpa using h0⟩
        · exact ⟨j + 1, by simpa using hj, by simpa using hne⟩
      · rintro ⟨i, hi, hne⟩
        cases i with
        | zero => exact Or.inl (by simpa using hne)
        | succ j => exact Or.inr ⟨j, by simpa using hi, by simpa using hne⟩

theorem isStrictlyBetter_eq (info : MappedItem → ItemInfo) (t e : MappedItem) :
    isStrictlyBetter info t e =
      (((((info t).stats.zip (info e).stats).all fun p => decide (p.2 ≤ p.1)) &&
        decide ((info e).energyCapacity ≤ (info t).energyCapacity) &&
        (t.processItem.isArtifice || !(info e).isArtifice) &&
        isSuperset (info t).relevantModSeasons (info e).relevantModSeasons) &&
       ((((info t).stats.zip (info e).stats).any fun p => decide (p.1 ≠ p.2)) ||
        decide ((info t).energyCapacity ≠ (info e).energyCapacity) ||
        ((info t).isArtifice != (info e).isArtifice) ||
        decide ((info t).relevantModSeasons.length ≠ (info e).relevantModSeasons.length))) := by
  simp only [isStrictlyBetter]
  split
  · next h =>
    simp only [Bool.not_eq_eq_eq_not, Bool.not_true] at h
    rw [h]
    simp
  · next h =>
    simp only [Bool.not_eq_eq_eq_not, Bool.not_true, Bool.not_eq_false] at h
    rw [h]
    simp

theorem nodup_length_eq_of_subset_subset {α : Type} {a b : List α} (hna : a.Nodup)
    (hnb : b.Nodup) (hab : a ⊆ b) (hba : b ⊆ a) : a.length = b.length :=
  le_antisymm (hna.subperm hab).length_le (hnb.subperm hba).length_le

theorem exists_missing_of_length_ne {α : Type} {a b : List α} (hna : a.Nodup)
    (hnb : b.Nodup) (hba : b ⊆ a) (hlen : a.length ≠ b.length) :
    ∃ s, s ∈ a ∧ s ∉ b := by
  by_contra hcon
  push_neg at hcon
  exact hlen (nodup_length_eq_of_subset_subset hna hnb hcon hba)

theorem length_ne_of_missing {α : Type} {a b : List α} (hnb : b.Nodup) (hba : b ⊆ a)
    {s : α} (hsa : s ∈ a) (hsb : s ∉ b) : a.length ≠ b.length := by
  intro he
  have hsub := hnb.subperm hba
  have hperm := hsub.perm_of_length_le (le_of_eq he)
  exact hsb (hperm.mem_iff.mpr hsa)

theorem itemInfo_stats_length (C : List ResolvedStatConstraint) (tags : List String)
    (m : MappedItem) : (itemInfo C tags m).stats.length = C.length := by
  simp [itemInfo]

theorem itemInfo_seasons_nodup (C : List ResolvedStatConstraint) (tags : List String)
    (m : MappedItem) : (itemInfo C tags m).relevantModSeasons.Nodup :=
  distinctList_nodup _

theorem sb_iff_dominates (C : List ResolvedStatConstraint) (tags : List String)
    (t e : MappedItem) :
    isStrictlyBetter (itemInfo C tags) t e = true ↔
      specDominates (itemInfo C tags t) (itemInfo C tags e) := by
  have hlen : (itemInfo C tags t).stats.length = (itemInfo C tags e).stats.length := by
    rw [itemInfo_stats_length, itemInfo_stats_length]
  have hart : (itemInfo C tags t).isArtifice = t.processItem.isArtifice := rfl
  have hna := itemInfo_seasons_nodup C tags t
  have hne := itemInfo_seasons_nodup C tags e
  rw [isStrictlyBetter_eq]
  simp only [Bool.and_eq_true, Bool.or_eq_true, specDominates]
  constructor
  · rintro ⟨⟨⟨⟨h1, h2⟩, h3⟩, h4⟩, hD⟩
    have hP1 := (zipAllLe_iff hlen).mp h1
    have hP2 : (itemInfo C tags e).energyCapacity ≤ (itemInfo C tags t).energyCapacity :=
      of_decide_eq_true h2
    have hP4 := isSuperset_iff.mp h4
    have hP3 : (itemInfo C tags e).isArtifice = true →
        (itemInfo C tags t).isArtifice = true := by
      rw [hart]
      rcases h3 with h3 | h3
      · intro _; exact h3
      · intro hb; rw [Bool.not_eq_true'] at h3; rw [h3] at hb; cases hb
    refine ⟨hP1, hP2, hP3, hP4, ?_⟩
    rcases hD with ((hD | hD) | hD) | hD
    · obtain ⟨i, hi, hne2⟩ := (zipAnyNe_iff hlen).mp hD
      exact Or.inl ⟨i, hi, lt_of_le_of_ne (hP1 i hi) (Ne.symm hne2)⟩
    · exact Or.inr (Or.inl (lt_of_le_of_ne hP2 (Ne.symm (of_decide_eq_true hD))))
    · refine Or.inr (Or.inr (Or.inl ?_))
      rw [bne_iff_ne] at hD
      cases hb : (itemInfo C tags e).isArtifice
      · cases ht2 : (itemInfo C tags t).isArtifice
        · rw [hb, ht2] at hD; exact absurd rfl hD
        · exact ⟨rfl, rfl⟩
      · exact absurd ((hP3 hb).trans (hb.symm)) hD
    · exact Or.inr (Or.inr (Or.inr
        (exists_missing_of_length_ne hna hne hP4 (of_decide_eq_true hD))))
  · rintro ⟨hP1, hP2, hP3, hP4, hS⟩
    have h1 := (zipAllLe_iff hlen).mpr hP1
    have h4 := isSuperset_iff.mpr hP4
    have h3 : t.processItem.isArtifice = true ∨
        (!(itemInfo C tags e).isArtifice) = true := by
      rw [← hart]
      cases hb : (itemInfo C tags e).isArtifice
      · exact Or.inr rfl
      · exact Or.inl (hP3 hb)
    refine ⟨⟨⟨⟨h1, decide_eq_true hP2⟩, h3⟩, h4⟩, ?_⟩
    rcases hS with ⟨i, hi, hlt⟩ | hlt | ⟨hta, hea⟩ | ⟨s, hsa, hsb⟩
    · exact Or.inl (Or.inl (Or.inl
        ((zipAnyNe_iff hlen).mpr ⟨i, hi, (ne_of_lt hlt).symm⟩)))
    · exact Or.inl (Or.inl (Or.inr (decide_eq_true (ne_of_lt hlt).symm)))
    · refine Or.inl (Or.inr ?_)
      rw [bne_iff_ne, hta, hea]
      exact fun hcon => Bool.noConfusion hcon
    · exact Or.inr (decide_eq_true (length_ne_of_missing hne hP4 hsa hsb))

theorem specDominates_irrefl (a : ItemInfo) : ¬ specDominates a a := by
  rintro ⟨-, -, -, -, hS⟩
  rcases hS with ⟨i, -, hlt⟩ | hlt | ⟨hta, hea⟩ | ⟨s, hsa, hsb⟩
  · exact lt_irrefl _ hlt
  · exact lt_irrefl _ hlt
  · rw [hta] at hea; cases hea
  · exact hsb hsa

theorem specDominates_asymm {a b : ItemInfo} (hlen : a.stats.length = b.stats.length)
    (hab : specDominates a b) : ¬ specDominates b a := by
  obtain ⟨-, -, -, -, hS⟩ := hab
  rintro ⟨hP1, hP2, hP3, hP4, -⟩
  rcases hS with ⟨i, hi, hlt⟩ | hlt | ⟨hta, hea⟩ | ⟨s, hsa, hsb⟩
  · exact absurd (hP1 i (hlen ▸ hi)) (not_le_of_lt hlt)
  · exact absurd hP2 (not_le_of_lt hlt)
  · rw [hP3 hta] at hea; cases hea
  · exact hsb (hP4 s hsa)

theorem specDominates_trans {a b c : ItemInfo}
    (hl1 : a.stats.length = b.stats.length) (_hl2 : b.stats.length = c.stats.length)
    (hab : specDominates a b) (hbc : specDominates b c) : specDominates a c := by
  obtain ⟨hab1, hab2, hab3, hab4, habS⟩ := hab
  obtain ⟨hbc1, hbc2, hbc3, hbc4, -⟩ := hbc
  refine ⟨fun i hi => (hbc1 i (hl1 ▸ hi)).trans (hab1 i hi), hbc2.trans hab2,
    fun hc => hab3 (hbc3 hc), fun s hs => hab4 s (hbc4 s hs), ?_⟩
  rcases habS with ⟨i, hi, hlt⟩ | hlt | ⟨hta, heb⟩ | ⟨s, hsa, hsb⟩
  · exact Or.inl ⟨i, hi, lt_of_le_of_lt (hbc1 i (hl1 ▸ hi)) hlt⟩
  · exact Or.inr (Or.inl (lt_of_le_of_lt hbc2 hlt))
  · refine Or.inr (Or.inr (Or.inl ⟨hta, ?_⟩))
    cases hc : c.isArtifice
    · rfl
    · rw [hbc3 hc] at heb; cases heb
  · exact Or.inr (Or.inr (Or.inr ⟨s, hsa, fun hsc => hsb (hbc4 s hsc)⟩))

theorem sb_irrefl (C : List ResolvedStatConstraint) (tags : List String)
    (m : MappedItem) : isStrictlyBetter (itemInfo C tags) m m = false := by
  rw [Bool.eq_false_iff]
  intro hcon
  exact specDominates_irrefl _ ((sb_iff_dominates C tags m m).mp hcon)

theorem sb_asymm (C : List ResolvedStatConstraint) (tags : List String)
    {a b : MappedItem} (h : isStrictlyBetter (itemInfo C tags) a b = true) :
    isStrictlyBetter (itemInfo C tags) b a = false := by
  rw [Bool.eq_false_iff]
  intro hcon
  exact specDominates_asymm
    ((itemInfo_stats_length C tags a).trans (itemInfo_stats_length C tags b).symm)
    ((sb_iff_dominates C tags a b).mp h) ((sb_iff_dominates C tags b a).mp hcon)

theorem sb_trans (C : List ResolvedStatConstraint) (tags : List String)
    {a b c : MappedItem} (hab : isStrictlyBetter (itemInfo C tags) a b = true)
    (hbc : isStrictlyBetter (itemInfo C tags) b c = true) :
    isStrictlyBetter (itemInfo C tags) a c = true := by
  rw [sb_iff_dominates]
  exact specDominates_trans
    ((itemInfo_stats_length C tags a).trans (itemInfo_stats_length C tags b).symm)
    ((itemInfo_stats_length C tags b).trans (itemInfo_stats_length C tags c).symm)
    ((sb_iff_dominates C tags a b).mp hab) ((sb_iff_dominates C tags b c).mp hbc)

theorem pruneScan_cons_better (info : MappedItem → ItemInfo) {i k : MappedItem}
    (ks : List MappedItem) (h1 : isStrictlyBetter info k i = true) :
    pruneScan info i (k :: ks) = (k :: ks, true) := by
  simp [pruneScan, h1]

theorem pruneScan_cons_worse (info : MappedItem → ItemInfo) {i k : MappedItem}
    (ks : List MappedItem) (h1 : isStrictlyBetter info k i = false)
    (h2 : isStrictlyBetter info i k = true) :
    pruneScan info i (k :: ks) = pruneScan info i ks := by
  simp [pruneScan, h1, h2]

theorem pruneScan_cons_keep (info : MappedItem → ItemInfo) {i k : MappedItem}
    (ks : List MappedItem) (h1 : isStrictlyBetter info k i = false)
    (h2 : isStrictlyBetter info i k = false) :
    pruneScan info i (k :: ks) =
      (k :: (pruneScan info i ks).1, (pruneScan info i ks).2) := by
  simp [pruneScan, h1, h2]

theorem pruneScan_sublist (info : MappedItem → ItemInfo) (i : MappedItem) :
    ∀ l : List MappedItem, (pruneScan info i l).1.Sublist l := by
  intro l
  induction l with
  | nil => simp [pruneScan]
  | cons k ks ih =>
    by_cases h1 : isStrictlyBetter info k i = true
    · rw [pruneScan_cons_better info ks h1]
    · rw [Bool.not_eq_true] at h1
      by_cases h2 : isStrictlyBetter info i k = true
      · rw [pruneScan_cons_worse info ks h1 h2]
        exact ih.cons k
      · rw [Bool.not_eq_true] at h2
        rw [pruneScan_cons_keep info ks h1 h2]
        exact ih.cons₂ k

theorem pruneScan_drop (info : MappedItem → ItemInfo) (i : MappedItem) :
    ∀ l : List MappedItem, ∀ x ∈ l, x ∉ (pruneScan info i l).1 →
      isStrictlyBetter info i x = true := by
  intro l
  induction l with
  | nil => intro x hx; cases hx
  | cons k ks ih =>
    intro x hx hnot
    by_cases h1 : isStrictlyBetter info k i = true
    · rw [pruneScan_cons_better info ks h1] at hnot
      exact absurd hx hnot
    · rw [Bool.not_eq_true] at h1
      by_cases h2 : isStrictlyBetter info i k = true
      · rw [pruneScan_cons_worse info ks h1 h2] at hnot
        rcases List.mem_cons.mp hx with rfl | hx2
        · exact h2
        · exact ih x hx2 hnot
      · rw [Bool.not_eq_true] at h2
        rw [pruneScan_cons_keep info ks h1 h2] at hnot
        rcases List.mem_cons.mp hx with rfl | hx2
        · exact absurd (List.mem_cons_self _ _) hnot
        · exact ih x hx2 fun hmem => hnot (List.mem_cons_of_mem _ hmem)

theorem pruneScan_not_dominated (info : MappedItem → ItemInfo) (i : MappedItem) :
    ∀ l : List MappedItem, (pruneScan info i l).2 = false →
      ∀ q ∈ (pruneScan info i l).1,
        isStrictlyBetter info q i = false ∧ isStrictlyBetter info i q = false := by
  intro l
  induction l with
  | nil => intro _ q hq; cases hq
  | cons k ks ih =>
    intro hdom q hq
    by_cases h1 : isStrictlyBetter info k i = true
    · rw [pruneScan_cons_better info ks h1] at hdom
      cases hdom
    · rw [Bool.not_eq_true] at h1
      by_cases h2 : isStrictlyBetter info i k = true
      · rw [pruneScan_cons_worse info ks h1 h2] at hdom hq
        exact ih hdom q hq
      · rw [Bool.not_eq_true] at h2
        rw [pruneScan_cons_keep info ks h1 h2] at hdom hq
        rcases List.mem_cons.mp hq with rfl | hq2
        · exact ⟨h1, h2⟩
        · exact ih hdom q hq2

theorem pruneScan_dominated (info : MappedItem → ItemInfo) (i : MappedItem) :
    ∀ l : List MappedItem, (pruneScan info i l).2 = true →
      ∃ q ∈ (pruneScan info i l).1, isStrictlyBetter info q i = true := by
  intro l
  induction l with
  | nil => intro h; cases h
  | cons k ks ih =>
    intro hdom
    by_cases h1 : isStrictlyBetter info k i = true
    · rw [pruneScan_cons_better info ks h1]
      exact ⟨k, List.mem_cons_self _ _, h1⟩
    · rw [Bool.not_eq_true] at h1
      by_cases h2 : isStrictlyBetter info i k = true
      · rw [pruneScan_cons_worse info ks h1 h2] at hdom ⊢
        exact ih hdom
      · rw [Bool.not_eq_true] at h2
        rw [pruneScan_cons_keep info ks h1 h2] at hdom ⊢
        obtain ⟨q, hq, hqi⟩ := ih hdom
        exact ⟨q, List.mem_cons_of_mem _ hq, hqi⟩

theorem pruneStep_subset (info : MappedItem → ItemInfo) (keep : List MappedItem)
    (i : MappedItem) : ∀ x ∈ pruneStep info keep i, x ∈ keep ∨ x = i := by
  intro x hx
  simp only [pruneStep] at hx
  have hsub : ∀ y ∈ (pruneScan info i keep.reverse).1, y ∈ keep := fun y hy =>
    List.mem_reverse.mp ((pruneScan_sublist info i keep.reverse).mem hy)
  split at hx
  · exact Or.inl (hsub x (List.mem_reverse.mp hx))
  · rcases List.mem_append.mp hx with hx2 | hx2
    · exact Or.inl (hsub x (List.mem_reverse.mp hx2))
    · exact Or.inr (List.mem_singleton.mp hx2)

theorem pruneStep_keeps (info : MappedItem → ItemInfo) {keep : List MappedItem}
    {i x : MappedItem} (hx : x ∈ keep) (hnd : isStrictlyBetter info i x = false) :
    x ∈ pruneStep info keep i := by
  have hxr : x ∈ keep.reverse := List.mem_reverse.mpr hx
  have hmem : x ∈ (pruneScan info i keep.reverse).1 := by
    by_contra hcon
    rw [pruneScan_drop info i keep.reverse x hxr hcon] at hnd
    cases hnd
  simp only [pruneStep]
  split
  · exact List.mem_reverse.mpr hmem
  · exact List.mem_append.mpr (Or.inl (List.mem_reverse.mpr hmem))

/-- The running invariant of the pruning loop: the keep set is an antichain
drawn from the processed items, and every processed item is either kept or
strictly worse than some kept item. -/
structure PruneInv (info : MappedItem → ItemInfo) (done keep : List MappedItem) :
    Prop where
  antichain : ∀ a ∈ keep, ∀ b ∈ keep, isStrictlyBetter info a b = false
  subset : ∀ x ∈ keep, x ∈ done
  covered : ∀ x ∈ done, ∃ q ∈ keep, q = x ∨ isStrictlyBetter info q x = true

theorem pruneStep_inv (C : List ResolvedStatConstraint) (tags : List String)
    {done keep : List MappedItem} (i : MappedItem)
    (h : PruneInv (itemInfo C tags) done keep) :
    PruneInv (itemInfo C tags) (done ++ [i]) (pruneStep (itemInfo C tags) keep i) := by
  set info := itemInfo C tags with hinfo
  have hsub : ∀ y ∈ (pruneScan info i keep.reverse).1, y ∈ keep := fun y hy =>
    List.mem_reverse.mp ((pruneScan_sublist info i keep.reverse).mem hy)
  by_cases hdom : (pruneScan info i keep.reverse).2 = true
  · have hres : pruneStep info keep i = (pruneScan info i keep.reverse).1.reverse := by
      simp [pruneStep, hdom]
    obtain ⟨w, hw, hwi⟩ := pruneScan_dominated info i keep.reverse hdom
    have hwmem : w ∈ pruneStep info keep i := hres ▸ List.mem_reverse.mpr hw
    refine ⟨?_, ?_, ?_⟩
    · intro a ha b hb
      rw [hres] at ha hb
      exact h.antichain a (hsub a (List.mem_reverse.mp ha))
        b (hsub b (List.mem_reverse.mp hb))
    · intro x hx
      rw [hres] at hx
      exact List.mem_append.mpr
        (Or.inl (h.subset x (hsub x (List.mem_reverse.mp hx))))
    · intro x hx
      rcases List.mem_append.mp hx with hx2 | hx2
      · obtain ⟨q, hq, hcov⟩ := h.covered x hx2
        by_cases hqr : q ∈ (pruneScan info i keep.reverse).1
        · exact ⟨q, hres ▸ List.mem_reverse.mpr hqr, hcov⟩
        · have hiq : isStrictlyBetter info i q = true :=
            pruneScan_drop info i keep.reverse q (List.mem_reverse.mpr hq) hqr
          refine ⟨w, hwmem, Or.inr ?_⟩
          rcases hcov with rfl | hqx
          · exact sb_trans C tags hwi hiq
          · exact sb_trans C tags (sb_trans C tags hwi hiq) hqx
      · rw [List.mem_singleton.mp hx2]
        exact ⟨w, hwmem, Or.inr hwi⟩
  · rw [Bool.not_eq_true] at hdom
    have hres : pruneStep info keep i =
        (pruneScan info i keep.reverse).1.reverse ++ [i] := by
      simp [pruneStep, hdom]
    have hkept := pruneScan_not_dominated info i keep.reverse hdom
    have himem : i ∈ pruneStep info keep i := by
      rw [hres]
      exact List.mem_append.mpr (Or.inr (List.mem_singleton.mpr rfl))
    refine ⟨?_, ?_, ?_⟩
    · intro a ha b hb
      rw [hres] at ha hb
      rcases List.mem_append.mp ha with ha2 | ha2 <;>
        rcases List.mem_append.mp hb with hb2 | hb2
      · exact h.antichain a (hsub a (List.mem_reverse.mp ha2))
          b (hsub b (List.mem_reverse.mp hb2))
      · rw [List.mem_singleton.mp hb2]
        exact (hkept a (List.mem_reverse.mp ha2)).1
      · rw [List.mem_singleton.mp ha2]
        exact (hkept b (List.mem_reverse.mp hb2)).2
      · rw [List.mem_singleton.mp ha2, List.mem_singleton.mp hb2]
        exact sb_irrefl C tags i
    · intro x hx
      rw [hres] at hx
      rcases List.mem_append.mp hx with hx2 | hx2
      · exact List.mem_append.mpr
          (Or.inl (h.subset x (hsub x (List.mem_reverse.mp hx2))))
      · exact List.mem_append.mpr (Or.inr hx2)
    · intro x hx
      rcases List.mem_append.mp hx with hx2 | hx2
      · obtain ⟨q, hq, hcov⟩ := h.covered x hx2
        by_cases hqr : q ∈ (pruneScan info i keep.reverse).1
        · refine ⟨q, ?_, hcov⟩
          rw [hres]
          exact List.mem_append.mpr (Or.inl (List.mem_reverse.mpr hqr))
        · have hiq : isStrictlyBetter info i q = true :=
            pruneScan_drop info i keep.reverse q (List.mem_reverse.mpr hq) hqr
          refine ⟨i, himem, Or.inr ?_⟩
          rcases hcov with rfl | hqx
          · exact hiq
          · exact sb_trans C tags hiq hqx
      · rw [List.mem_singleton.mp hx2]
        exact ⟨i, himem, Or.inl rfl⟩

theorem foldl_pruneStep_inv (C : List ResolvedStatConstraint) (tags : List String) :
    ∀ (l done keep : List MappedItem), PruneInv (itemInfo C tags) done keep →
      PruneInv (itemInfo C tags) (done ++ l)
        (l.foldl (pruneStep (itemInfo C tags)) keep) := by
  intro l
  induction l with
  | nil => intro done keep h; simpa using h
  | cons i l ih =>
    intro done keep h
    have hstep := pruneStep_inv C tags i h
    have := ih (done ++ [i]) (pruneStep (itemInfo C tags) keep i) hstep
    simpa [List.append_assoc] using this

theorem pruneBucket_inv (C : List ResolvedStatConstraint) (tags : List String)
    (l : List MappedItem) : PruneInv (itemInfo C tags) l
      (pruneBucket (itemInfo C tags) l) := by
  have hbase : PruneInv (itemInfo C tags) [] [] := by
    refine ⟨?_, ?_, ?_⟩ <;> intro x hx <;> cases hx
  simpa using foldl_pruneStep_inv C tags l [] [] hbase

theorem foldl_keeps_maximal (C : List ResolvedStatConstraint) (tags : List String) :
    ∀ (l keep : List MappedItem) (x : MappedItem), x ∈ keep →
      (∀ y ∈ l, isStrictlyBetter (itemInfo C tags) y x = false) →
      x ∈ l.foldl (pruneStep (itemInfo C tags)) keep := by
  intro l
  induction l with
  | nil => intro keep x hx _; exact hx
  | cons i l ih =>
    intro keep x hx hl
    exact ih (pruneStep (itemInfo C tags) keep i) x
      (pruneStep_keeps (itemInfo C tags) hx (hl i (List.mem_cons_self _ _)))
      fun y hy => hl y (List.mem_cons_of_mem _ hy)

theorem foldl_adds_maximal (C : List ResolvedStatConstraint) (tags : List String) :
    ∀ (l keep : List MappedItem) (x : MappedItem), x ∈ l →
      (∀ y ∈ l, isStrictlyBetter (itemInfo C tags) y x = false) →
      (∀ q ∈ keep, isStrictlyBetter (itemInfo C tags) q x = false) →
      x ∈ l.foldl (pruneStep (itemInfo C tags)) keep := by
  intro l
  induction l with
  | nil => intro keep x hx; cases hx
  | cons i l ih =>
    intro keep x hx hl hkeep
    set info := itemInfo C tags with hinfo
    rcases List.mem_cons.mp hx with rfl | hx2
    · have hdom : (pruneScan info x keep.reverse).2 = false := by
        by_contra hcon
        rw [Bool.not_eq_false] at hcon
        obtain ⟨q, hq, hqx⟩ := pruneScan_dominated info x keep.reverse hcon
        have hqk : q ∈ keep :=
          List.mem_reverse.mp ((pruneScan_sublist info x keep.reverse).mem hq)
        rw [hkeep q hqk] at hqx
        cases hqx
      have hxin : x ∈ pruneStep info keep x := by
        simp only [pruneStep, hdom]
        simp
      exact foldl_keeps_maximal C tags l (pruneStep info keep x) x hxin
        fun y hy => hl y (List.mem_cons_of_mem _ hy)
    · refine ih (pruneStep info keep i) x hx2
        (fun y hy => hl y (List.mem_cons_of_mem _ hy)) ?_
      intro q hq
      rcases pruneStep_subset info keep i q hq with hq2 | rfl
      · exact hkeep q hq2
      · exact hl q (List.mem_cons_self _ _)

theorem mem_pruneBucket_iff (C : List ResolvedStatConstraint) (tags : List String)
    (l : List MappedItem) (x : MappedItem) :
    x ∈ pruneBucket (itemInfo C tags) l ↔
      x ∈ l ∧ ∀ y ∈ l, isStrictlyBetter (itemInfo C tags) y x = false := by
  constructor
  · intro hx
    have hinv := pruneBucket_inv C tags l
    refine ⟨hinv.subset x hx, fun y hy => ?_⟩
    by_contra hcon
    rw [Bool.not_eq_false] at hcon
    obtain ⟨q, hq, hcov⟩ := hinv.covered y hy
    have hqx : isStrictlyBetter (itemInfo C tags) q x = true := by
      rcases hcov with rfl | hqy
      · exact hcon
      · exact sb_trans C tags hqy hcon
    rw [hinv.antichain q hq x hx] at hqx
    cases hqx
  · rintro ⟨hx, hmax⟩
    exact foldl_adds_maximal C tags l [] x hx hmax fun q hq => absurd hq
      (List.not_mem_nil q)

theorem mem_groupByKey {α κ : Type} [DecidableEq κ] {key : α → κ} {l : List α}
    {g : List α} (hg : g ∈ groupByKey key l) :
    ∃ k ∈ distinctList (l.map key), g = l.filter fun x => decide (key x = k) := by
  obtain ⟨k, hk, rfl⟩ := List.mem_map.mp hg
  exact ⟨k, hk, rfl⟩

theorem groupByKey_sub {α κ : Type} [DecidableEq κ] {key : α → κ} {l : List α}
    {g : List α} (hg : g ∈ groupByKey key l) {x : α} (hx : x ∈ g) : x ∈ l := by
  obtain ⟨k, -, rfl⟩ := mem_groupByKey hg
  exact List.mem_of_mem_filter hx

theorem groupByKey_same_key {α κ : Type} [DecidableEq κ] {key : α → κ} {l : List α}
    {g : List α} (hg : g ∈ groupByKey key l) {x y : α} (hx : x ∈ g) (hy : y ∈ g) :
    key x = key y := by
  obtain ⟨k, -, rfl⟩ := mem_groupByKey hg
  have hxk : key x = k := of_decide_eq_true (List.mem_filter.mp hx).2
  have hyk : key y = k := of_decide_eq_true (List.mem_filter.mp hy).2
  rw [hxk, hyk]

theorem groupByKey_ne_nil {α κ : Type} [DecidableEq κ] {key : α → κ} {l : List α}
    {g : List α} (hg : g ∈ groupByKey key l) : g ≠ [] := by
  obtain ⟨k, hk, rfl⟩ := mem_groupByKey hg
  have hk2 : k ∈ l.map key := mem_distinctList.mp hk
  obtain ⟨x, hx, rfl⟩ := List.mem_map.mp hk2
  intro hcon
  have hxf : x ∈ l.filter fun y => decide (key y = key x) :=
    List.mem_filter.mpr ⟨hx, by simp⟩
  rw [hcon] at hxf
  cases hxf

theorem sum_count_if {κ : Type} [DecidableEq κ] (kx : κ) (c : Nat) :
    ∀ ks : List κ, ks.Nodup →
      (ks.map fun k => if kx = k then c else 0).sum = if kx ∈ ks then c else 0 := by
  intro ks
  induction ks with
  | nil => simp
  | cons k ks ih =>
    intro hnd
    obtain ⟨hk, hnd2⟩ := List.nodup_cons.mp hnd
    by_cases hkx : kx = k
    · subst hkx
      simp [ih hnd2, hk]
    · by_cases hmem : kx ∈ ks <;> simp [ih hnd2, hkx, hmem]

theorem count_filter_key {α κ : Type} [DecidableEq α] [DecidableEq κ] (key : α → κ)
    (l : List α) (a : α) (k : κ) :
    ((l.filter fun x => decide (key x = k)).count a) =
      if key a = k then l.count a else 0 := by
  by_cases hk : key a = k
  · rw [if_pos hk]
    refine List.count_filter ?_
    simpa using hk
  · rw [if_neg hk]
    refine List.count_eq_zero.mpr fun hmem => ?_
    exact hk (of_decide_eq_true (List.mem_filter.mp hmem).2)

theorem groupByKey_flatten_perm {α κ : Type} [DecidableEq α] [DecidableEq κ]
    (key : α → κ) (l : List α) : (groupByKey key l).flatten.Perm l := by
  rw [List.perm_iff_count]
  intro a
  rw [List.count_flatten, groupByKey, List.map_map]
  have hmap : (distinctList (l.map key)).map
        (List.count a ∘ fun k => l.filter fun x => decide (key x = k)) =
      (distinctList (l.map key)).map fun k => if key a = k then l.count a else 0 :=
    List.map_congr_left fun k _ => count_filter_key key l a k
  rw [hmap, sum_count_if _ _ _ (distinctList_nodup _)]
  by_cases ha : a ∈ l
  · have hmem : key a ∈ distinctList (l.map key) :=
      mem_distinctList.mpr (List.mem_map_of_mem key ha)
    simp [hmem]
  · have hc : l.count a = 0 := List.count_eq_zero.mpr ha
    simp [hc]

theorem groupByKey_length_le {α κ : Type} [DecidableEq κ] (key : α → κ)
    (l : List α) : (groupByKey key l).length ≤ l.length := by
  rw [groupByKey, List.length_map]
  calc (distinctList (l.map key)).length ≤ (l.map key).length :=
        (distinctList_sublist _).length_le
    _ = l.length := List.length_map _ _

theorem sortGroup_perm (getUserItemTag : DimItem → Option String)
    (group : List MappedItem) : (sortGroup getUserItemTag group).Perm group :=
  sortByLe_perm _ group

theorem mem_mapItemsToGroups {toProcess : DimItem → ProcessItem}
    {C : List ResolvedStatConstraint} {gmt : Nat → Option String} {am : List Nat}
    {getTag : DimItem → Option String} {items : List DimItem} {grp : ItemGroup}
    (hg : grp ∈ mapItemsToGroups toProcess C gmt am getTag items) :
    ∃ bucket g,
      bucket ∈ groupByKey (fun it => firstPassGroupingFn it.processItem)
          (items.map fun d => MappedItem.mk d (toProcess d)) ∧
      g ∈ groupByKey (finalGroupingFn (itemInfo C (requiredModTags gmt am)))
          (pruneBucket (itemInfo C (requiredModTags gmt am)) bucket) ∧
      grp = mkGroup getTag g := by
  simp only [mapItemsToGroups] at hg
  obtain ⟨bucket, hb, hgrp⟩ := List.mem_flatMap.mp hg
  simp only [bucketToGroups] at hgrp
  obtain ⟨g, hgg, rfl⟩ := List.mem_map.mp hgrp
  exact ⟨bucket, g, hb, hgg, rfl⟩

theorem items_of_mkGroup {getTag : DimItem → Option String} {g : List MappedItem}
    {d : DimItem} (hd : d ∈ (mkGroup getTag g).items) : ∃ m ∈ g, m.dimItem = d := by
  simp only [mkGroup] at hd
  obtain ⟨m, hm, rfl⟩ := List.mem_map.mp hd
  exact ⟨m, (sortGroup_perm getTag g).mem_iff.mp hm, rfl⟩

theorem mem_mapped_form {toProcess : DimItem → ProcessItem} {items : List DimItem}
    {m : MappedItem} (hm : m ∈ items.map fun d => MappedItem.mk d (toProcess d)) :
    m.processItem = toProcess m.dimItem := by
  obtain ⟨d, _, rfl⟩ := List.mem_map.mp hm
  rfl

theorem keep_artifice_eq (C : List ResolvedStatConstraint) (tags : List String)
    {bucket : List MappedItem} {x y : MappedItem}
    (hx : x ∈ pruneBucket (itemInfo C tags) bucket)
    (hy : y ∈ pruneBucket (itemInfo C tags) bucket)
    (hs : (itemInfo C tags x).stats = (itemInfo C tags y).stats)
    (he : (itemInfo C tags x).energyCapacity = (itemInfo C tags y).energyCapacity)
    (hr : (itemInfo C tags x).relevantModSeasons =
      (itemInfo C tags y).relevantModSeasons) :
    (itemInfo C tags x).isArtifice = (itemInfo C tags y).isArtifice := by
  have hinv := pruneBucket_inv C tags bucket
  have key : ∀ u v : MappedItem, u ∈ pruneBucket (itemInfo C tags) bucket →
      v ∈ pruneBucket (itemInfo C tags) bucket →
      (itemInfo C tags u).stats = (itemInfo C tags v).stats →
      (itemInfo C tags u).energyCapacity = (itemInfo C tags v).energyCapacity →
      (itemInfo C tags u).relevantModSeasons = (itemInfo C tags v).relevantModSeasons →
      (itemInfo C tags u).isArtifice = true →
      (itemInfo C tags v).isArtifice = false → False := by
    intro u v hu hv hs2 he2 hr2 hau hav
    have hsb : isStrictlyBetter (itemInfo C tags) u v = true := by
      rw [sb_iff_dominates]
      refine ⟨fun i hi => le_of_eq (congrArg (fun l => List.getD l i 0) hs2.symm),
        le_of_eq he2.symm, fun _ => hau,
        fun s hs3 => by rw [hr2]; exact hs3,
        Or.inr (Or.inr (Or.inl ⟨hau, hav⟩))⟩
    rw [hinv.antichain u hu v hv] at hsb
    cases hsb
  by_contra hne
  cases hax : (itemInfo C tags x).isArtifice <;>
    cases hay : (itemInfo C tags y).isArtifice
  · rw [hax, hay] at hne; exact hne rfl
  · exact key y x hy hx hs.symm he.symm hr.symm hay hax
  · exact key x y hx hy hs he hr hax hay
  · rw [hax, hay] at hne; exact hne rfl

/-- C1: any two members of the same equivalence group produced by
`mapItemsToGroups` have identical cached canonical records: the same
constrained-stat vector (in `resolvedStatConstraints` order), the same
remaining energy capacity, the same relevant-mod-tag set, and the same
artifice flag — the last even though the final grouping key carries only
stats, energy capacity and mod tags, because the pruned keep set can never
retain two otherwise-identical items that differ in artifice status. -/
theorem claim1_group_members_interchangeable
    (toProcess : DimItem → ProcessItem) (C : List ResolvedStatConstraint)
    (gmt : Nat → Option String) (am : List Nat) (getTag : DimItem → Option String)
    (items : List DimItem) (grp : ItemGroup) (d1 d2 : DimItem)
    (hg : grp ∈ mapItemsToGroups toProcess C gmt am getTag items)
    (h1 : d1 ∈ grp.items) (h2 : d2 ∈ grp.items) :
    itemInfo C (requiredModTags gmt am) (MappedItem.mk d1 (toProcess d1)) =
      itemInfo C (requiredModTags gmt am) (MappedItem.mk d2 (toProcess d2)) := by
  obtain ⟨bucket, g, hb, hgg, rfl⟩ := mem_mapItemsToGroups hg
  obtain ⟨m1, hm1, hm1d⟩ := items_of_mkGroup h1
  obtain ⟨m2, hm2, hm2d⟩ := items_of_mkGroup h2
  set tags := requiredModTags gmt am with htags
  have hk := groupByKey_same_key hgg hm1 hm2
  have hp1 : m1 ∈ pruneBucket (itemInfo C tags) bucket := groupByKey_sub hgg hm1
  have hp2 : m2 ∈ pruneBucket (itemInfo C tags) bucket := groupByKey_sub hgg hm2
  have hinv := pruneBucket_inv C tags bucket
  have hbm1 : m1 ∈ bucket := hinv.subset m1 hp1
  have hbm2 : m2 ∈ bucket := hinv.subset m2 hp2
  have hform1 : m1.processItem = toProcess m1.dimItem :=
    mem_mapped_form (groupByKey_sub hb hbm1)
  have hform2 : m2.processItem = toProcess m2.dimItem :=
    mem_mapped_form (groupByKey_sub hb hbm2)
  have hm1eq : MappedItem.mk d1 (toProcess d1) = m1 := by
    rw [← hm1d, ← hform1]
  have hm2eq : MappedItem.mk d2 (toProcess d2) = m2 := by
    rw [← hm2d, ← hform2]
  have hstats : (itemInfo C tags m1).stats = (itemInfo C tags m2).stats :=
    congrArg GroupKey.stats hk
  have henergy : (itemInfo C tags m1).energyCapacity =
      (itemInfo C tags m2).energyCapacity := congrArg GroupKey.energyCapacity hk
  have hseasons : (itemInfo C tags m1).relevantModSeasons =
      (itemInfo C tags m2).relevantModSeasons := congrArg GroupKey.modSeasons hk
  have hart := keep_artifice_eq C tags hp1 hp2 hstats henergy hseasons
  rw [hm1eq, hm2eq]
  calc itemInfo C tags m1
      = ItemInfo.mk (itemInfo C tags m1).stats (itemInfo C tags m1).energyCapacity
          (itemInfo C tags m1).relevantModSeasons (itemInfo C tags m1).isArtifice :=
        rfl
    _ = ItemInfo.mk (itemInfo C tags m2).stats (itemInfo C tags m2).energyCapacity
          (itemInfo C tags m2).relevantModSeasons (itemInfo C tags m2).isArtifice := by
        rw [hstats, henergy, hseasons, hart]
    _ = itemInfo C tags m2 := rfl

/-- C9: no equivalence group produced by `mapItemsToGroups` mixes an exotic
with a non-exotic item, nor two exotics with different item hashes: the
first grouping pass keys every exotic by its hash and all legendaries under
one shared key, and pruning plus final grouping stay inside one first-pass
bucket. -/
theorem claim9_exotics_never_merged
    (toProcess : DimItem → ProcessItem) (C : List ResolvedStatConstraint)
    (gmt : Nat → Option String) (am : List Nat) (getTag : DimItem → Option String)
    (items : List DimItem) (grp : ItemGroup) (d1 d2 : DimItem)
    (hg : grp ∈ mapItemsToGroups toProcess C gmt am getTag items)
    (h1 : d1 ∈ grp.items) (h2 : d2 ∈ grp.items) :
    (toProcess d1).isExotic = (toProcess d2).isExotic ∧
      ((toProcess d1).isExotic = true → (toProcess d1).hash = (toProcess d2).hash) := by
  obtain ⟨bucket, g, hb, hgg, rfl⟩ := mem_mapItemsToGroups hg
  obtain ⟨m1, hm1, hm1d⟩ := items_of_mkGroup h1
  obtain ⟨m2, hm2, hm2d⟩ := items_of_mkGroup h2
  set tags := requiredModTags gmt am with htags
  have hinv := pruneBucket_inv C tags bucket
  have hbm1 : m1 ∈ bucket := hinv.subset m1 (groupByKey_sub hgg hm1)
  have hbm2 : m2 ∈ bucket := hinv.subset m2 (groupByKey_sub hgg hm2)
  have hform1 : m1.processItem = toProcess m1.dimItem :=
    mem_mapped_form (groupByKey_sub hb hbm1)
  have hform2 : m2.processItem = toProcess m2.dimItem :=
    mem_mapped_form (groupByKey_sub hb hbm2)
  have hkey : firstPassGroupingFn m1.processItem =
      firstPassGroupingFn m2.processItem := groupByKey_same_key hb hbm1 hbm2
  rw [hform1, hform2, hm1d, hm2d] at hkey
  cases he1 : (toProcess d1).isExotic <;> cases he2 : (toProcess d2).isExotic <;>
    simp only [firstPassGroupingFn, he1, he2, if_true, if_false] at hkey
  · exact ⟨rfl, fun hcon => by cases hcon⟩
  · cases hkey
  · cases hkey
  · exact ⟨rfl, fun _ => Option.some.inj hkey⟩

/-- C1 witness: instantiated at the owned/vendor helmet pair of spec §8. -/
theorem claim1_witness :
    ((⟨exPOwned, [exDOwned, exDVendor]⟩ : ItemGroup) ∈
        mapItemsToGroups exToProcess exC6 (fun _ => none) [] (fun _ => none)
          [exDOwned, exDVendor]) ∧
    exDOwned ∈ (⟨exPOwned, [exDOwned, exDVendor]⟩ : ItemGroup).items ∧
    exDVendor ∈ (⟨exPOwned, [exDOwned, exDVendor]⟩ : ItemGroup).items ∧
    itemInfo exC6 (requiredModTags (fun _ => none) [])
        (MappedItem.mk exDOwned (exToProcess exDOwned)) =
      itemInfo exC6 (requiredModTags (fun _ => none) [])
        (MappedItem.mk exDVendor (exToProcess exDVendor)) :=
  ⟨by decide, by decide, by decide,
    claim1_group_members_interchangeable exToProcess exC6 (fun _ => none) []
      (fun _ => none) [exDOwned, exDVendor] ⟨exPOwned, [exDOwned, exDVendor]⟩
      exDOwned exDVendor (by decide) (by decide) (by decide)⟩

/-- C9 witness: instantiated at the owned/vendor helmet pair. -/
theorem claim9_witness :
    ((⟨exPOwned, [exDOwned, exDVendor]⟩ : ItemGroup) ∈
        mapItemsToGroups exToProcess exC6 (fun _ => none) [] (fun _ => none)
          [exDOwned, exDVendor]) ∧
    exDOwned ∈ (⟨exPOwned, [exDOwned, exDVendor]⟩ : ItemGroup).items ∧
    exDVendor ∈ (⟨exPOwned, [exDOwned, exDVendor]⟩ : ItemGroup).items ∧
    (exToProcess exDOwned).isExotic = (exToProcess exDVendor).isExotic ∧
    ((exToProcess exDOwned).isExotic = true →
      (exToProcess exDOwned).hash = (exToProcess exDVendor).hash) :=
  ⟨by decide, by decide, by decide,
    claim9_exotics_never_merged exToProcess exC6 (fun _ => none) []
      (fun _ => none) [exDOwned, exDVendor] ⟨exPOwned, [exDOwned, exDVendor]⟩
      exDOwned exDVendor (by decide) (by decide) (by decide)⟩

/-- C3: `isStrictlyBetter` decides exactly the five-condition dominance
relation of spec §4.2 over the cached canonical records: all constrained
stats at least as high, energy capacity at least as high, artifice
capability never lost, mod tag set a superset, and at least one comparison
strict. -/
theorem claim3_isStrictlyBetter_iff_dominates (C : List ResolvedStatConstraint)
    (tags : List String) (A B : MappedItem) :
    isStrictlyBetter (itemInfo C tags) A B = true ↔
      specDominates (itemInfo C tags A) (itemInfo C tags B) :=
  sb_iff_dominates C tags A B

/-- C4: after the pruning loop finishes over any bucket, the kept set is an
antichain under `isStrictlyBetter`: no kept item is strictly better than
another kept item, in either direction. -/
theorem claim4_kept_set_antichain (C : List ResolvedStatConstraint)
    (tags : List String) (bucket : List MappedItem) (X Y : MappedItem)
    (hX : X ∈ pruneBucket (itemInfo C tags) bucket)
    (hY : Y ∈ pruneBucket (itemInfo C tags) bucket) (_hne : X ≠ Y) :
    isStrictlyBetter (itemInfo C tags) X Y = false ∧
      isStrictlyBetter (itemInfo C tags) Y X = false :=
  ⟨(pruneBucket_inv C tags bucket).antichain X hX Y hY,
    (pruneBucket_inv C tags bucket).antichain Y hY X hX⟩

/-- C4 witness: two incomparable items both survive pruning and neither is
strictly better than the other. -/
theorem claim4_witness :
    exM1 ∈ pruneBucket (itemInfo exC2 []) [exM1, exM2] ∧
    exM2 ∈ pruneBucket (itemInfo exC2 []) [exM1, exM2] ∧
    exM1 ≠ exM2 ∧
    (isStrictlyBetter (itemInfo exC2 []) exM1 exM2 = false ∧
      isStrictlyBetter (itemInfo exC2 []) exM2 exM1 = false) :=
  ⟨by decide, by decide, by decide,
    claim4_kept_set_antichain exC2 [] [exM1, exM2] exM1 exM2
      (by decide) (by decide) (by decide)⟩

/-- C5: whenever item A of a bucket is strictly better than item B of the
same bucket, B is not in the pruned keep set — also when A itself is later
removed by a third, even better item. -/
theorem claim5_dominated_never_kept (C : List ResolvedStatConstraint)
    (tags : List String) (bucket : List MappedItem) (A B : MappedItem)
    (hA : A ∈ bucket) (_hB : B ∈ bucket)
    (hdom : isStrictlyBetter (itemInfo C tags) A B = true) :
    B ∉ pruneBucket (itemInfo C tags) bucket := by
  intro hcon
  have h := (mem_pruneBucket_iff C tags bucket B).mp hcon
  rw [h.2 A hA] at hdom
  cases hdom

/-- C5 witness: `exM3` strictly betters `exM1`, so `exM1` is pruned even
though `exM3` itself is later removed by `exM4`. -/
theorem claim5_witness :
    exM3 ∈ [exM1, exM3, exM4] ∧
    exM1 ∈ [exM1, exM3, exM4] ∧
    isStrictlyBetter (itemInfo exC2 []) exM3 exM1 = true ∧
    pruneBucket (itemInfo exC2 []) [exM1, exM3, exM4] = [exM4] ∧
    exM1 ∉ pruneBucket (itemInfo exC2 []) [exM1, exM3, exM4] :=
  ⟨by decide, by decide, by decide, by decide,
    claim5_dominated_never_kept exC2 [] [exM1, exM3, exM4] exM3 exM1
      (by decide) (by decide) (by decide)⟩

/-- C6: the pruned keep set, viewed as a set, does not depend on the order
in which the bucket items are processed: permuting the input permutes
nothing in the resulting set of kept items. -/
theorem claim6_prune_order_independent (C : List ResolvedStatConstraint)
    (tags : List String) (l1 l2 : List MappedItem) (hperm : l1.Perm l2) :
    (pruneBucket (itemInfo C tags) l1).toFinset =
      (pruneBucket (itemInfo C tags) l2).toFinset := by
  ext x
  simp only [List.mem_toFinset]
  rw [mem_pruneBucket_iff, mem_pruneBucket_iff]
  constructor
  · rintro ⟨hx, hmax⟩
    exact ⟨hperm.mem_iff.mp hx, fun y hy => hmax y (hperm.mem_iff.mpr hy)⟩
  · rintro ⟨hx, hmax⟩
    exact ⟨hperm.mem_iff.mpr hx, fun y hy => hmax y (hperm.mem_iff.mp hy)⟩

/-- C6 witness: a three-item bucket and its reversal prune to the same set
of kept items. -/
theorem claim6_witness :
    ([exM1, exM2, exM3] : List MappedItem).Perm [exM3, exM2, exM1] ∧
    (pruneBucket (itemInfo exC2 []) [exM1, exM2, exM3]).toFinset =
      (pruneBucket (itemInfo exC2 []) [exM3, exM2, exM1]).toFinset :=
  ⟨by decide,
    claim6_prune_order_independent exC2 [] [exM1, exM2, exM3] [exM3, exM2, exM1]
      (by decide)⟩

theorem flatten_sorted_map_perm (getTag : DimItem → Option String) :
    ∀ gs : List (List MappedItem),
      ((gs.map fun g => (sortGroup getTag g).map MappedItem.dimItem).flatten).Perm
        (gs.flatten.map MappedItem.dimItem) := by
  intro gs
  induction gs with
  | nil => simp
  | cons g gs ih =>
    simp only [List.map_cons, List.flatten_cons, List.map_append]
    exact ((sortGroup_perm getTag g).map MappedItem.dimItem).append ih

/-- C7: the equivalence groups built from a bucket's pruned keep set
partition it exactly — the concatenation of all group member lists is a
permutation of the keep set (no omissions, no duplicates, nothing from
outside), and there are at most as many groups as kept items. -/
theorem claim7_groups_partition_keep_set (C : List ResolvedStatConstraint)
    (tags : List String) (getTag : DimItem → Option String)
    (bucket : List MappedItem) :
    (((bucketToGroups (itemInfo C tags) getTag bucket).map ItemGroup.items).flatten).Perm
        ((pruneBucket (itemInfo C tags) bucket).map MappedItem.dimItem) ∧
      (bucketToGroups (itemInfo C tags) getTag bucket).length ≤
        (pruneBucket (itemInfo C tags) bucket).length := by
  constructor
  · have hmap : (bucketToGroups (itemInfo C tags) getTag bucket).map ItemGroup.items =
        (groupByKey (finalGroupingFn (itemInfo C tags))
            (pruneBucket (itemInfo C tags) bucket)).map
          fun g => (sortGroup getTag g).map MappedItem.dimItem := by
      rw [bucketToGroups, List.map_map]
      rfl
    rw [hmap]
    exact (flatten_sorted_map_perm getTag _).trans
      ((groupByKey_flatten_perm _ _).map MappedItem.dimItem)
  · rw [bucketToGroups, List.length_map]
    exact groupByKey_length_le _ _

theorem insertLe_pairwise {α : Type} (le : α → α → Bool)
    (htot : ∀ a b, (le a b || le b a) = true)
    (htrans : ∀ a b c, le a b = true → le b c = true → le a c = true)
    (a : α) : ∀ l : List α, List.Pairwise (fun x y => le x y = true) l →
      List.Pairwise (fun x y => le x y = true) (insertLe le a l) := by
  intro l
  induction l with
  | nil => intro _; simp [insertLe]
  | cons b l ih =>
    intro hl
    obtain ⟨hb, hl2⟩ := List.pairwise_cons.mp hl
    simp only [insertLe]
    split
    · next hab =>
      refine List.Pairwise.cons ?_ hl
      intro x hx
      rcases List.mem_cons.mp hx with rfl | hx2
      · exact hab
      · exact htrans a b x hab (hb x hx2)
    · next hab =>
      refine List.Pairwise.cons ?_ (ih hl2)
      intro x hx
      rcases List.mem_cons.mp ((insertLe_perm le a l).mem_iff.mp hx) with hxa | hx2
      · subst hxa
        rcases Bool.or_eq_true_iff.mp (htot x b) with h | h
        · exact absurd h hab
        · exact h
      · exact hb x hx2

theorem sortByLe_pairwise {α : Type} (le : α → α → Bool)
    (htot : ∀ a b, (le a b || le b a) = true)
    (htrans : ∀ a b c, le a b = true → le b c = true → le a c = true)
    (l : List α) : List.Pairwise (fun x y => le x y = true) (sortByLe le l) := by
  induction l with
  | nil => simp [sortByLe]
  | cons a l ih => exact insertLe_pairwise le htot htrans a (sortByLe le l) ih

theorem groupComparator_transCmp (getTag : DimItem → Option String) :
    Batteries.TransCmp (groupComparator getTag) := by
  unfold groupComparator
  infer_instance

theorem bne_gt_iff (o : Ordering) : (o != Ordering.gt) = true ↔ o ≠ Ordering.gt := by
  cases o <;> simp <;> decide

theorem groupLe_total (getTag : DimItem → Option String) (a b : MappedItem) :
    (groupLe getTag a b || groupLe getTag b a) = true := by
  by_cases h : groupComparator getTag a b = Ordering.gt
  · have hsw := @Batteries.OrientedCmp.symm _ _
      (groupComparator_transCmp getTag).toOrientedCmp a b
    rw [h] at hsw
    refine Bool.or_eq_true_iff.mpr (Or.inr ?_)
    rw [groupLe, ← hsw]
    rfl
  · exact Bool.or_eq_true_iff.mpr (Or.inl ((bne_gt_iff _).mpr h))

theorem groupLe_trans (getTag : DimItem → Option String) (a b c : MappedItem)
    (h1 : groupLe getTag a b = true) (h2 : groupLe getTag b c = true) :
    groupLe getTag a c = true := by
  rw [groupLe, bne_gt_iff] at h1 h2 ⊢
  exact @Batteries.TransCmp.le_trans _ _ (groupComparator_transCmp getTag)
    _ _ _ h1 h2

/-- C8: every group emitted by `mapItemsToGroups` is a list of mapped items
sorted by the five-key tie-break comparator (energy capacity, then owned
over vendor, then favorite, then power, then equipped); the output keeps
the whole member list in this order, and the representative
`canonicalProcessItem` is the process item of the first sorted member.
Moreover, in the owned/vendor example of spec §8, the two identical
legendaries both survive pruning, merge into one group, and the
owned/equipped item is chosen as the representative. -/
theorem claim8_tie_break_order_and_representative :
    (∀ (toProcess : DimItem → ProcessItem) (C : List ResolvedStatConstraint)
      (gmt : Nat → Option String) (am : List Nat)
      (getTag : DimItem → Option String) (items : List DimItem) (grp : ItemGroup),
      grp ∈ mapItemsToGroups toProcess C gmt am getTag items →
      ∃ s : List MappedItem, s ≠ [] ∧
        List.Pairwise (fun a b => groupLe getTag a b = true) s ∧
        grp.items = s.map MappedItem.dimItem ∧
        grp.canonicalProcessItem = s.headI.processItem) ∧
    mapItemsToGroups exToProcess exC6 (fun _ => none) [] (fun _ => none)
        [exDOwned, exDVendor] =
      [⟨exPOwned, [exDOwned, exDVendor]⟩] := by
  constructor
  · intro toProcess C gmt am getTag items grp hg
    obtain ⟨bucket, g, hb, hgg, rfl⟩ := mem_mapItemsToGroups hg
    refine ⟨sortGroup getTag g, ?_, ?_, rfl, rfl⟩
    · intro hcon
      have hlen := (sortGroup_perm getTag g).length_eq
      rw [hcon] at hlen
      exact groupByKey_ne_nil hgg (List.length_eq_zero.mp hlen.symm)
    · exact sortByLe_pairwise (groupLe getTag) (groupLe_total getTag)
        (groupLe_trans getTag) g
  · decide

/-- C8 witness: the general sortedness statement instantiated at the
owned/vendor helmet pair. -/
theorem claim8_witness :
    ((⟨exPOwned, [exDOwned, exDVendor]⟩ : ItemGroup) ∈
        mapItemsToGroups exToProcess exC6 (fun _ => none) [] (fun _ => none)
          [exDOwned, exDVendor]) ∧
    (∃ s : List MappedItem, s ≠ [] ∧
      List.Pairwise (fun a b => groupLe (fun _ => none) a b = true) s ∧
      (⟨exPOwned, [exDOwned, exDVendor]⟩ : ItemGroup).items =
        s.map MappedItem.dimItem ∧
      (⟨exPOwned, [exDOwned, exDVendor]⟩ : ItemGroup).canonicalProcessItem =
        s.headI.processItem) :=
  ⟨by decide,
    claim8_tie_break_order_and_representative.1 exToProcess exC6 (fun _ => none)
      [] (fun _ => none) [exDOwned, exDVendor] ⟨exPOwned, [exDOwned, exDVendor]⟩
      (by decide)⟩

theorem lookup_of_nodup_keys {β : Type} :
    ∀ l : List (String × β), (l.map Prod.fst).Nodup →
      ∀ {k : String} {v : β}, (k, v) ∈ l → l.lookup k = some v := by
  intro l
  induction l with
  | nil => intro _ k v h; cases h
  | cons kv l ih =>
    obtain ⟨a, b⟩ := kv
    intro hnd k v hm
    have hnd1 : (a :: l.map Prod.fst).Nodup := by simpa using hnd
    obtain ⟨hk, hnd2⟩ := List.nodup_cons.mp hnd1
    rcases List.mem_cons.mp hm with heq | hm2
    · injection heq with h1 h2
      subst h1
      subst h2
      simp [List.lookup]
    · have hkmem : k ∈ l.map Prod.fst := by
        have := List.mem_map_of_mem Prod.fst hm2
        simpa using this
      have hne : k ≠ a := fun he => hk (he ▸ hkmem)
      have hbeq : (k == a) = false := beq_eq_false_iff_ne.mpr hne
      simp only [List.lookup, hbeq]
      exact ih hnd2 hm2

/-- C10: assuming the canonical ids across all groups are pairwise distinct
(the spec's well-formedness precondition), every canonical item sent to the
worker is a key of `itemsById` pointing at the group it represents, and
hydrating any set whose per-slot ids come from the sent items reproduces
exactly the canonical items originally sent. -/
theorem claim10_hydration_round_trip (toProcess : Nat → DimItem → ProcessItem)
    (C : List ResolvedStatConstraint) (gmt : Nat → Option String) (am : List Nat)
    (getTag : DimItem → Option String) (filteredItems : List (Nat × List DimItem))
    (hnodup : ((runProcessGroups toProcess C gmt am getTag filteredItems).map
      fun g => g.canonicalProcessItem.id).Nodup) :
    hydrationRoundTrip toProcess C gmt am getTag filteredItems := by
  have hkeys : ((itemsById toProcess C gmt am getTag filteredItems).map
      Prod.fst).Nodup := by
    rw [itemsById, List.map_map]
    exact hnodup
  have hrevkeys : ((itemsById toProcess C gmt am getTag filteredItems).reverse.map
      Prod.fst).Nodup := by
    rw [List.map_reverse]
    exact List.nodup_reverse.mpr hkeys
  have hpart1 : ∀ p ∈ processItemsSent toProcess C gmt am getTag filteredItems,
      ∃ g, mapGet (itemsById toProcess C gmt am getTag filteredItems) p.id =
        some g ∧ g.canonicalProcessItem = p := by
    intro p hp
    obtain ⟨g0, hg0, rfl⟩ := List.mem_map.mp hp
    refine ⟨g0, ?_, rfl⟩
    have hmem : (g0.canonicalProcessItem.id, g0) ∈
        (itemsById toProcess C gmt am getTag filteredItems).reverse :=
      List.mem_reverse.mpr (List.mem_map_of_mem _ hg0)
    exact lookup_of_nodup_keys _ hrevkeys hmem
  refine ⟨hpart1, ?_⟩
  intro setIds
  induction setIds with
  | nil => intro _; exact ⟨[], rfl, rfl, fun g hg => absurd hg (List.not_mem_nil g)⟩
  | cons i rest ih =>
    intro hids
    obtain ⟨p, hp, hpid⟩ := hids i (List.mem_cons_self _ _)
    obtain ⟨g, hget, hgp⟩ := hpart1 p hp
    obtain ⟨gs, hgs, hmap, hmem⟩ := ih fun j hj => hids j (List.mem_cons_of_mem _ hj)
    refine ⟨g :: gs, ?_, ?_, ?_⟩
    · rw [hydrateArmorSet, ← hpid, hget, hgs]
    · rw [List.map_cons, hmap, hgp, hpid]
    · intro g2 hg2
      rcases List.mem_cons.mp hg2 with rfl | hg3
      · rw [hgp]; exact hp
      · exact hmem g2 hg3

/-- C10 witness: the round trip instantiated at a one-bucket inventory
holding the owned/vendor helmet pair, which yields a single group keyed by
the owned item's id. -/
theorem claim10_witness :
    (((runProcessGroups (fun _ => exToProcess) exC6 (fun _ => none) []
        (fun _ => none) [(0, [exDOwned, exDVendor])]).map
      fun g => g.canonicalProcessItem.id).Nodup) ∧
    hydrationRoundTrip (fun _ => exToProcess) exC6 (fun _ => none) []
      (fun _ => none) [(0, [exDOwned, exDVendor])] :=
  ⟨by decide,
    claim10_hydration_round_trip (fun _ => exToProcess) exC6 (fun _ => none) []
      (fun _ => none) [(0, [exDOwned, exDVendor])] (by decide)⟩

/-- C2 counterexample: when the worker call rejects, the promise returned
by `runProcess` settles zero times, not once — its executor only ever calls
`resolve` from the fulfillment handler, so the claim that the result
promise still settles on worker failure is false at this outcome. -/
theorem claim2_counterexample :
    settleCount (resultPromiseState (fun r : Nat => r) WorkerOutcome.failure) = 0 ∧
      settleCount (resultPromiseState (fun r : Nat => r) WorkerOutcome.failure) ≠ 1 := by
  exact ⟨rfl, by decide⟩

/-- C2 amended: the result promise of `runProcess` resolves exactly once
with the hydrated result when the worker call fulfills; when the call
rejects or never responds (for example after a caller-invoked `cleanup`
terminated the worker), the promise never settles and stays pending, while
the `.finally` cleanup still runs whenever the worker call itself
settles. -/
theorem claim2_amended_promise_settlement (R S : Type) (hydrate : R → S) :
    (∀ r : R, resultPromiseState hydrate (WorkerOutcome.success r) =
        PromiseState.resolved (hydrate r) ∧
      settleCount (resultPromiseState hydrate (WorkerOutcome.success r)) = 1) ∧
    resultPromiseState hydrate WorkerOutcome.failure = PromiseState.pending ∧
    resultPromiseState hydrate WorkerOutcome.noResponse = PromiseState.pending ∧
    settleCount (resultPromiseState hydrate WorkerOutcome.failure) = 0 ∧
    settleCount (resultPromiseState hydrate WorkerOutcome.noResponse) = 0 ∧
    finallyCleanupRuns (WorkerOutcome.failure : WorkerOutcome R) = true ∧
    (∀ r : R, finallyCleanupRuns (WorkerOutcome.success r) = true) :=
  ⟨fun _ => ⟨rfl, rfl⟩, rfl, rfl, rfl, rfl, rfl, fun _ => rfl⟩
